import Mathlib

/-!
Shallow embedding of the go-resource-pool repository (`src/new_pool.go`).

The pool state `NewPool[T]` holds two Go maps guarded by one mutex:
`lock : map[T]time.Time` (in-use resources, keyed by identity, valued by
checkout time) and `unlock : map[T]time.Time` (idle resources, valued by
the time they became idle).  Go maps with unique keys are embedded as
association lists `List (T × Int)`; `time.Time` is embedded as `Int`
(only comparison and subtraction of a duration are used), and each
operation receives the current time `now` explicitly in place of the
`time.Now()` calls it performs.  The caller-supplied creator function is
embedded as the `Except Err T` outcome it would produce for the one call
`Acquire` can make to it, together with a `factoryCalled` flag recording
whether that call happened.
-/

set_option linter.unusedSectionVars false

namespace ResourcePool

/-- A Go `map[T]time.Time` as an association list of key/timestamp pairs. -/
abbrev AssocMap (T : Type) := List (T × Int)

/-- The key set of an embedded map. -/
def keys {T : Type} (m : AssocMap T) : List T := m.map Prod.fst

/-- Go map read `m[r]`: the timestamp stored for key `r`, if present. -/
def lookupKey {T : Type} [DecidableEq T] (r : T) : AssocMap T → Option Int
  | [] => none
  | (k, v) :: rest => if k = r then some v else lookupKey r rest

/-- Go `delete(m, r)`: remove the entry for key `r`. -/
def eraseKey {T : Type} [DecidableEq T] (r : T) (m : AssocMap T) : AssocMap T :=
  m.filter fun p => decide (p.1 ≠ r)

/-- Go map write `m[r] = t`: bind key `r` to `t`, overwriting any previous binding. -/
def insertKey {T : Type} [DecidableEq T] (r : T) (t : Int) (m : AssocMap T) : AssocMap T :=
  (r, t) :: eraseKey r m

/-- The state of a `NewPool[T]` value (`src/new_pool.go`, lines 18-25):
`creator` and the mutex are modelled at the call sites, the remaining
fields are carried here.  `lock` is the in-use map, `unlock` the idle map. -/
structure PoolState (T : Type) where
  maxIdleSize : Nat
  maxIdleTime : Int
  lock : AssocMap T
  unlock : AssocMap T
deriving DecidableEq

/-- `getValidTimestamp` (line 112): `time.Now().Add(-1 * n.maxIdleTime)`. -/
def getValidTimestamp {T : Type} (n : PoolState T) (now : Int) : Int :=
  now - n.maxIdleTime

/-- `deleteInvalidIdleResources` (lines 91-99): delete from `unlock` every
entry whose timestamp is before `getValidTimestamp`. -/
def deleteInvalidIdleResources {T : Type} (n : PoolState T) (now : Int) : PoolState T :=
  { n with unlock := n.unlock.filter fun p => decide (¬ p.2 < getValidTimestamp n now) }

/-- `getIdleResource` (lines 102-110): take the first entry the map range
produces (Go map iteration order is arbitrary; the embedding fixes the
head of the list as that arbitrary choice), move it from `unlock` to
`lock` stamped with the current time, and report success; on an empty
map report failure. -/
def getIdleResource {T : Type} [DecidableEq T] (n : PoolState T) (now : Int) :
    Option T × PoolState T :=
  match n.unlock with
  | [] => (none, n)
  | (r, _) :: rest =>
    (some r, { n with unlock := rest, lock := insertKey r now n.lock })

/-- The outcome of one `Acquire` call: the returned value or error, the
pool state afterwards, and whether the creator function was invoked. -/
structure AcquireOut (T : Type) (Err : Type) where
  result : Except Err T
  state : PoolState T
  factoryCalled : Bool

/-- `Acquire` (lines 35-54): sweep expired idle entries, try the idle map,
otherwise call the creator; on creator failure return the error, on
success record the new resource in `lock` at the current time. -/
def Acquire {T : Type} [DecidableEq T] {Err : Type} (n : PoolState T) (now : Int)
    (creator : Except Err T) : AcquireOut T Err :=
  match getIdleResource (deleteInvalidIdleResources n now) now with
  | (some r, n2) => ⟨Except.ok r, n2, false⟩
  | (none, n2) =>
    match creator with
    | Except.error e => ⟨Except.error e, n2, true⟩
    | Except.ok r => ⟨Except.ok r, { n2 with lock := insertKey r now n2.lock }, true⟩

/-- `NumIdle` (lines 83-88): `len(n.unlock)`. -/
def NumIdle {T : Type} (n : PoolState T) : Nat := n.unlock.length

/-- `Release` (lines 57-80): if the resource is not in `lock`, return
without change; otherwise delete it from `lock`, then discard it when its
checkout timestamp is stale or when the idle map is at capacity
(`n.NumIdle() >= n.maxIdleSize`), and otherwise store it in `unlock`
stamped with the current time. -/
def Release {T : Type} [DecidableEq T] (n : PoolState T) (now : Int) (r : T) : PoolState T :=
  match lookupKey r n.lock with
  | none => n
  | some savedTimestamp =>
    let n1 : PoolState T := { n with lock := eraseKey r n.lock }
    if savedTimestamp < getValidTimestamp n now then n1
    else if n1.maxIdleSize ≤ NumIdle n1 then n1
    else { n1 with unlock := insertKey r now n1.unlock }

/-- `New` (lines 116-131): a pool with the given configuration and empty maps. -/
def New (T : Type) (maxIdleSize : Nat) (maxIdleTime : Int) : PoolState T :=
  ⟨maxIdleSize, maxIdleTime, [], []⟩

/-- One client call to the pool: an `Acquire` at time `now` whose creator
would produce `creator` if invoked, or a `Release` of `r` at time `now`. -/
inductive Op (T : Type) (Err : Type) where
  | acquire (now : Int) (creator : Except Err T)
  | release (now : Int) (r : T)

/-- Effect of one call on the pool state. -/
def step {T : Type} [DecidableEq T] {Err : Type} (n : PoolState T) : Op T Err → PoolState T
  | Op.acquire now creator => (Acquire n now creator).state
  | Op.release now r => Release n now r

/-- Run a sequence of calls from a given state. -/
def run {T : Type} [DecidableEq T] {Err : Type} (n : PoolState T) : List (Op T Err) → PoolState T
  | [] => n
  | op :: ops => run (step n op) ops

/-- Well-formedness of a pool state, as guaranteed for real Go maps: the
two maps have duplicate-free key sets, and no key is in both at once. -/
def WF {T : Type} (n : PoolState T) : Prop :=
  (keys n.lock).Nodup ∧ (keys n.unlock).Nodup ∧
    ∀ r, r ∈ keys n.lock → r ∉ keys n.unlock

/-- One operation on the pool mutex, as performed by the pool methods. -/
inductive MEvent where
  | lockOp
  | unlockOp
deriving DecidableEq

/-- The mutex operations one `NumIdle` call performs (lines 83-88): it
locks the pool mutex and unlocks it again when it returns. -/
def numIdleMutexOps : List MEvent := [MEvent.lockOp, MEvent.unlockOp]

/-- The mutex operations one `Release` call attempts, in order (lines
57-80): the initial `n.mutex.Lock()`, then — only on the path where the
resource was found in `lock` and its timestamp is not stale — the
operations of the nested `n.NumIdle()` call of line 74, and finally the
deferred `Unlock`. -/
def releaseMutexOps {T : Type} [DecidableEq T] (n : PoolState T) (now : Int) (r : T) :
    List MEvent :=
  MEvent.lockOp ::
    (match lookupKey r n.lock with
     | none => [MEvent.unlockOp]
     | some savedTimestamp =>
       if savedTimestamp < getValidTimestamp n now then [MEvent.unlockOp]
       else numIdleMutexOps ++ [MEvent.unlockOp])

/-- Replay attempted mutex operations against a non-reentrant mutex such
as Go's `sync.Mutex`: the result is `true` when some `Lock` is attempted
while the mutex is already held by the same caller, i.e. the call
deadlocks at that point. -/
def deadlocksFrom : Bool → List MEvent → Bool
  | _, [] => false
  | held, MEvent.lockOp :: rest => held || deadlocksFrom true rest
  | _, MEvent.unlockOp :: rest => deadlocksFrom false rest

end ResourcePool

namespace ResourcePool

variable {T : Type} [DecidableEq T] {Err : Type}

/-! ### Association-list map lemmas -/

theorem keys_filter_sublist (p : T × Int → Bool) (m : AssocMap T) :
    List.Sublist (keys (m.filter p)) (keys m) :=
  (List.filter_sublist m).map Prod.fst

theorem nodup_keys_filter (p : T × Int → Bool) {m : AssocMap T}
    (h : (keys m).Nodup) : (keys (m.filter p)).Nodup :=
  h.sublist (keys_filter_sublist p m)

theorem mem_keys_filter {p : T × Int → Bool} {m : AssocMap T} {x : T}
    (hx : x ∈ keys (m.filter p)) : x ∈ keys m :=
  (keys_filter_sublist p m).mem hx

theorem mem_keys_eraseKey {r x : T} {m : AssocMap T} :
    x ∈ keys (eraseKey r m) ↔ x ∈ keys m ∧ x ≠ r := by
  constructor
  · intro hx
    rcases List.mem_map.mp hx with ⟨p, hp, rfl⟩
    rcases List.mem_filter.mp hp with ⟨hpm, hpr⟩
    exact ⟨List.mem_map.mpr ⟨p, hpm, rfl⟩, by simpa using hpr⟩
  · rintro ⟨hx, hne⟩
    rcases List.mem_map.mp hx with ⟨p, hp, rfl⟩
    exact List.mem_map.mpr ⟨p, List.mem_filter.mpr ⟨hp, by simpa using hne⟩, rfl⟩

theorem nodup_keys_eraseKey {r : T} {m : AssocMap T}
    (h : (keys m).Nodup) : (keys (eraseKey r m)).Nodup :=
  nodup_keys_filter _ h

theorem not_mem_keys_eraseKey (r : T) (m : AssocMap T) : r ∉ keys (eraseKey r m) := by
  intro h
  exact (mem_keys_eraseKey.mp h).2 rfl

theorem keys_insertKey (r : T) (t : Int) (m : AssocMap T) :
    keys (insertKey r t m) = r :: keys (eraseKey r m) := rfl

theorem nodup_keys_insertKey {r : T} {t : Int} {m : AssocMap T}
    (h : (keys m).Nodup) : (keys (insertKey r t m)).Nodup := by
  rw [keys_insertKey]
  exact List.nodup_cons.mpr ⟨not_mem_keys_eraseKey r m, nodup_keys_eraseKey h⟩

theorem mem_keys_insertKey {r x : T} {t : Int} {m : AssocMap T} :
    x ∈ keys (insertKey r t m) ↔ x = r ∨ (x ∈ keys m ∧ x ≠ r) := by
  rw [keys_insertKey, List.mem_cons, mem_keys_eraseKey]

theorem lookupKey_eq_none {r : T} {m : AssocMap T} :
    lookupKey r m = none ↔ r ∉ keys m := by
  induction m with
  | nil => simp [lookupKey, keys]
  | cons p rest ih =>
    obtain ⟨k, v⟩ := p
    by_cases h : k = r
    · subst h
      simp [lookupKey, keys]
    · simp only [lookupKey, if_neg h, ih, keys, List.map_cons, List.mem_cons]
      constructor
      · intro hnr hmem
        rcases hmem with rfl | hmem
        · exact h rfl
        · exact hnr hmem
      · intro hnr hmem
        exact hnr (Or.inr hmem)

theorem mem_of_lookupKey_eq_some {r : T} {t : Int} {m : AssocMap T}
    (h : lookupKey r m = some t) : (r, t) ∈ m := by
  induction m with
  | nil => simp [lookupKey] at h
  | cons p rest ih =>
    obtain ⟨k, v⟩ := p
    by_cases hk : k = r
    · subst hk
      have hv : v = t := by simpa [lookupKey] using h
      subst hv
      exact List.mem_cons_self _ _
    · simp only [lookupKey, if_neg hk] at h
      exact List.mem_cons_of_mem _ (ih h)

theorem lookupKey_insertKey_self (r : T) (t : Int) (m : AssocMap T) :
    lookupKey r (insertKey r t m) = some t := by
  simp [insertKey, lookupKey]

theorem length_eraseKey_le (r : T) (m : AssocMap T) :
    (eraseKey r m).length ≤ m.length :=
  m.length_filter_le _

theorem mem_keys_of_mem {p : T × Int} {m : AssocMap T} (hp : p ∈ m) : p.1 ∈ keys m :=
  List.mem_map.mpr ⟨p, hp, rfl⟩

theorem unlock_deleteInvalidIdleResources (n : PoolState T) (now : Int) :
    (deleteInvalidIdleResources n now).unlock =
      n.unlock.filter (fun p => decide (¬ p.2 < getValidTimestamp n now)) := rfl

theorem lock_deleteInvalidIdleResources (n : PoolState T) (now : Int) :
    (deleteInvalidIdleResources n now).lock = n.lock := rfl

/-! ### Reduction lemmas for the pool operations -/

theorem PoolState.ext {a b : PoolState T} (h1 : a.maxIdleSize = b.maxIdleSize)
    (h2 : a.maxIdleTime = b.maxIdleTime) (h3 : a.lock = b.lock)
    (h4 : a.unlock = b.unlock) : a = b := by
  cases a
  cases b
  simp_all

theorem getIdleResource_nil {n : PoolState T} {now : Int} (h : n.unlock = []) :
    getIdleResource n now = (none, n) := by
  unfold getIdleResource
  rw [h]

theorem getIdleResource_cons {n : PoolState T} {now : Int} {r : T} {t : Int}
    {rest : AssocMap T} (h : n.unlock = (r, t) :: rest) :
    getIdleResource n now =
      (some r, { n with unlock := rest, lock := insertKey r now n.lock }) := by
  unfold getIdleResource
  rw [h]

theorem Acquire_reuse {n : PoolState T} {now : Int} {creator : Except Err T}
    {r : T} {t : Int} {rest : AssocMap T}
    (h : (deleteInvalidIdleResources n now).unlock = (r, t) :: rest) :
    Acquire n now creator =
      ⟨Except.ok r, ⟨n.maxIdleSize, n.maxIdleTime, insertKey r now n.lock, rest⟩, false⟩ := by
  unfold Acquire
  rw [getIdleResource_cons h]
  rfl

theorem Acquire_create_ok {n : PoolState T} {now : Int} {r : T}
    (h : (deleteInvalidIdleResources n now).unlock = []) :
    Acquire n now (Except.ok r : Except Err T) =
      ⟨Except.ok r, ⟨n.maxIdleSize, n.maxIdleTime, insertKey r now n.lock, []⟩, true⟩ := by
  unfold Acquire
  rw [getIdleResource_nil h]
  simp [h]
  exact ⟨rfl, rfl, rfl⟩

theorem Acquire_create_error {n : PoolState T} {now : Int} {e : Err}
    (h : (deleteInvalidIdleResources n now).unlock = []) :
    Acquire n now (Except.error e : Except Err T) =
      ⟨Except.error e, ⟨n.maxIdleSize, n.maxIdleTime, n.lock, []⟩, true⟩ := by
  unfold Acquire
  rw [getIdleResource_nil h]
  simp [h]
  exact PoolState.ext rfl rfl rfl h

theorem Release_of_lookup_none {n : PoolState T} {now : Int} {r : T}
    (h : lookupKey r n.lock = none) : Release n now r = n := by
  unfold Release
  rw [h]

theorem Release_of_lookup_some_stale {n : PoolState T} {now : Int} {r : T} {ts : Int}
    (h : lookupKey r n.lock = some ts) (hst : ts < getValidTimestamp n now) :
    Release n now r = { n with lock := eraseKey r n.lock } := by
  unfold Release
  rw [h]
  simp only [if_pos hst]

theorem Release_of_lookup_some_full {n : PoolState T} {now : Int} {r : T} {ts : Int}
    (h : lookupKey r n.lock = some ts) (hst : ¬ ts < getValidTimestamp n now)
    (hfull : n.maxIdleSize ≤ n.unlock.length) :
    Release n now r = { n with lock := eraseKey r n.lock } := by
  unfold Release
  rw [h]
  simp only [if_neg hst]
  exact if_pos hfull

theorem Release_of_lookup_some_store {n : PoolState T} {now : Int} {r : T} {ts : Int}
    (h : lookupKey r n.lock = some ts) (hst : ¬ ts < getValidTimestamp n now)
    (hroom : ¬ n.maxIdleSize ≤ n.unlock.length) :
    Release n now r =
      { n with lock := eraseKey r n.lock, unlock := insertKey r now n.unlock } := by
  unfold Release
  rw [h]
  simp only [if_neg hst]
  exact if_neg hroom

/-! ### Preservation of the pool invariant -/

theorem WF_New (maxIdleSize : Nat) (maxIdleTime : Int) :
    WF (New T maxIdleSize maxIdleTime) := by
  refine ⟨List.nodup_nil, List.nodup_nil, ?_⟩
  intro r h
  simp [New, keys] at h

theorem WF_deleteInvalidIdleResources {n : PoolState T} (now : Int) (h : WF n) :
    WF (deleteInvalidIdleResources n now) := by
  obtain ⟨h1, h2, h3⟩ := h
  exact ⟨h1, nodup_keys_filter _ h2, fun r hr hru => h3 r hr (mem_keys_filter hru)⟩

theorem WF_Acquire {n : PoolState T} {now : Int} {creator : Except Err T} (h : WF n) :
    WF (Acquire n now creator).state := by
  obtain ⟨hl, hu, hd⟩ := WF_deleteInvalidIdleResources now h
  cases hu' : (deleteInvalidIdleResources n now).unlock with
  | nil =>
    cases creator with
    | error e =>
      rw [Acquire_create_error hu']
      exact ⟨hl, List.nodup_nil, fun x _ hx => by simp [keys] at hx⟩
    | ok r =>
      rw [Acquire_create_ok hu']
      exact ⟨nodup_keys_insertKey hl, List.nodup_nil, fun x _ hx => by simp [keys] at hx⟩
  | cons p rest =>
    obtain ⟨r, t⟩ := p
    rw [Acquire_reuse hu']
    rw [hu'] at hu
    have hrrest : r ∉ keys rest := (List.nodup_cons.mp hu).1
    have hrest : (keys rest).Nodup := (List.nodup_cons.mp hu).2
    refine ⟨nodup_keys_insertKey hl, hrest, ?_⟩
    intro x hx hxu
    rcases mem_keys_insertKey.mp hx with rfl | ⟨hxl, _⟩
    · exact hrrest hxu
    · have : x ∈ keys ((deleteInvalidIdleResources n now).unlock) := by
        rw [hu']
        exact List.mem_cons_of_mem _ hxu
      exact hd x hxl this

theorem WF_Release {n : PoolState T} {now : Int} {r : T} (h : WF n) :
    WF (Release n now r) := by
  obtain ⟨hl, hu, hd⟩ := h
  cases hlk : lookupKey r n.lock with
  | none =>
    rw [Release_of_lookup_none hlk]
    exact ⟨hl, hu, hd⟩
  | some ts =>
    by_cases hst : ts < getValidTimestamp n now
    · rw [Release_of_lookup_some_stale hlk hst]
      exact ⟨nodup_keys_eraseKey hl, hu, fun x hx => hd x (mem_keys_eraseKey.mp hx).1⟩
    · by_cases hfull : n.maxIdleSize ≤ n.unlock.length
      · rw [Release_of_lookup_some_full hlk hst hfull]
        exact ⟨nodup_keys_eraseKey hl, hu, fun x hx => hd x (mem_keys_eraseKey.mp hx).1⟩
      · rw [Release_of_lookup_some_store hlk hst hfull]
        refine ⟨nodup_keys_eraseKey hl, nodup_keys_insertKey hu, ?_⟩
        intro x hx hxu
        obtain ⟨hxl, hxr⟩ := mem_keys_eraseKey.mp hx
        rcases mem_keys_insertKey.mp hxu with rfl | ⟨hxu', _⟩
        · exact hxr rfl
        · exact hd x hxl hxu'

theorem WF_step {n : PoolState T} {op : Op T Err} (h : WF n) : WF (step n op) := by
  cases op with
  | acquire now creator => exact WF_Acquire h
  | release now r => exact WF_Release h

theorem WF_run {n : PoolState T} {ops : List (Op T Err)} (h : WF n) : WF (run n ops) := by
  induction ops generalizing n with
  | nil => exact h
  | cons op ops ih => exact ih (WF_step h)

end ResourcePool

namespace ResourcePool

-- sanity examples mirroring the repository's table tests (mock time base 100)
example : (Acquire (⟨3, 5, [], [(2, 90)]⟩ : PoolState Nat) 100
    (Except.ok (1 : Nat)) : AcquireOut Nat Nat).state = ⟨3, 5, [(1, 100)], []⟩ := by decide

example : (Acquire (⟨3, 5, [], [(2, 100)]⟩ : PoolState Nat) 100
    (Except.ok (1 : Nat)) : AcquireOut Nat Nat).result = Except.ok 2 := rfl

example : Release (⟨3, 5, [(2, 90)], []⟩ : PoolState Nat) 100 2 = ⟨3, 5, [], []⟩ := by decide

example : Release (⟨3, 5, [(2, 100)], []⟩ : PoolState Nat) 100 2 = ⟨3, 5, [], [(2, 100)]⟩ := by
  decide

example : Release (⟨3, 5, [(2, 100)], [(5, 100), (6, 100), (7, 100)]⟩ : PoolState Nat) 100 2 =
    ⟨3, 5, [], [(5, 100), (6, 100), (7, 100)]⟩ := by decide

end ResourcePool

namespace ResourcePool

/-! ### Claims -/

/-- Claim C1: starting from a newly constructed pool, no sequence of
Acquire and Release calls — with the creator free to return any value,
including one equal to a resource currently in the idle or the in-use
map — ever makes a resource identity a key of both the in-use map `lock`
and the idle map `unlock` at the same time. -/
theorem claim_mutual_exclusivity (T : Type) [DecidableEq T] (Err : Type)
    (maxIdleSize : Nat) (maxIdleTime : Int) (ops : List (Op T Err)) (r : T) :
    ¬ (r ∈ keys (run (New T maxIdleSize maxIdleTime) ops).lock ∧
       r ∈ keys (run (New T maxIdleSize maxIdleTime) ops).unlock) := by
  rintro ⟨h1, h2⟩
  exact (WF_run (WF_New maxIdleSize maxIdleTime)).2.2 r h1 h2

theorem claim_mutual_exclusivity_witness :
    ¬ ((1 : Nat) ∈ keys (run (New Nat 3 5)
        ([Op.acquire 0 (Except.ok 1), Op.release 7 1] : List (Op Nat Nat))).lock ∧
       (1 : Nat) ∈ keys (run (New Nat 3 5)
        ([Op.acquire 0 (Except.ok 1), Op.release 7 1] : List (Op Nat Nat))).unlock) :=
  claim_mutual_exclusivity Nat Nat 3 5 [Op.acquire 0 (Except.ok 1), Op.release 7 1] 1

/-- Claim C3: when the idle map holds at most `maxIdleSize` entries
before the call, it still does after any Release completes; moreover
releasing a found, fresh resource while the idle map already holds
exactly `maxIdleSize` entries removes it from the in-use map but does
not add it to the idle map. -/
theorem claim_release_idle_cap (T : Type) [DecidableEq T] (n : PoolState T)
    (now : Int) (r : T) (h : NumIdle n ≤ n.maxIdleSize) :
    NumIdle (Release n now r) ≤ n.maxIdleSize ∧
    (∀ ts, lookupKey r n.lock = some ts → ¬ ts < getValidTimestamp n now →
      NumIdle n = n.maxIdleSize →
      r ∉ keys (Release n now r).lock ∧ (Release n now r).unlock = n.unlock) := by
  constructor
  · cases hlk : lookupKey r n.lock with
    | none =>
      rw [Release_of_lookup_none hlk]
      exact h
    | some ts =>
      by_cases hst : ts < getValidTimestamp n now
      · rw [Release_of_lookup_some_stale hlk hst]
        exact h
      · by_cases hfull : n.maxIdleSize ≤ n.unlock.length
        · rw [Release_of_lookup_some_full hlk hst hfull]
          exact h
        · rw [Release_of_lookup_some_store hlk hst hfull]
          have hlen : (eraseKey r n.unlock).length + 1 ≤ n.unlock.length + 1 :=
            Nat.succ_le_succ (length_eraseKey_le r n.unlock)
          have hlt : n.unlock.length + 1 ≤ n.maxIdleSize :=
            Nat.succ_le_of_lt (Nat.lt_of_not_le hfull)
          exact le_trans hlen hlt
  · intro ts hlk hst hfullEq
    have hfull : n.maxIdleSize ≤ n.unlock.length := le_of_eq hfullEq.symm
    rw [Release_of_lookup_some_full hlk hst hfull]
    exact ⟨not_mem_keys_eraseKey r n.lock, rfl⟩

theorem claim_release_idle_cap_witness :
    NumIdle (Release (⟨1, 5, [(2, 100)], [(7, 100)]⟩ : PoolState Nat) 100 2) ≤ 1 ∧
    (2 ∉ keys (Release (⟨1, 5, [(2, 100)], [(7, 100)]⟩ : PoolState Nat) 100 2).lock ∧
     (Release (⟨1, 5, [(2, 100)], [(7, 100)]⟩ : PoolState Nat) 100 2).unlock = [(7, 100)]) :=
  ⟨(claim_release_idle_cap Nat ⟨1, 5, [(2, 100)], [(7, 100)]⟩ 100 2 (by decide)).1,
   (claim_release_idle_cap Nat ⟨1, 5, [(2, 100)], [(7, 100)]⟩ 100 2 (by decide)).2 100
     (by decide) (by decide) (by decide)⟩

/-- Claim C8: releasing a value that is not a key of the in-use map
returns without error and leaves the whole pool state — both maps, every
key and every timestamp — exactly unchanged. -/
theorem claim_release_unknown_noop (T : Type) [DecidableEq T] (n : PoolState T)
    (now : Int) (r : T) (h : lookupKey r n.lock = none) :
    Release n now r = n :=
  Release_of_lookup_none h

theorem claim_release_unknown_noop_witness :
    Release (⟨3, 5, [(1, 100)], [(4, 90)]⟩ : PoolState Nat) 100 2 =
      ⟨3, 5, [(1, 100)], [(4, 90)]⟩ :=
  claim_release_unknown_noop Nat ⟨3, 5, [(1, 100)], [(4, 90)]⟩ 100 2 (by decide)

/-- Claim C9: when the released resource is found in the in-use map it is
removed from it unconditionally (whatever the staleness or capacity
outcome), and when its checkout timestamp is older than
now − maxIdleTime the resource is not added to the idle map: the idle
map is left unchanged. -/
theorem claim_release_found_removed (T : Type) [DecidableEq T] (n : PoolState T)
    (now : Int) (r : T) (ts : Int) (h : lookupKey r n.lock = some ts) :
    (Release n now r).lock = eraseKey r n.lock ∧
    r ∉ keys (Release n now r).lock ∧
    (ts < getValidTimestamp n now → (Release n now r).unlock = n.unlock) := by
  by_cases hst : ts < getValidTimestamp n now
  · rw [Release_of_lookup_some_stale h hst]
    exact ⟨rfl, not_mem_keys_eraseKey r n.lock, fun _ => rfl⟩
  · by_cases hfull : n.maxIdleSize ≤ n.unlock.length
    · rw [Release_of_lookup_some_full h hst hfull]
      exact ⟨rfl, not_mem_keys_eraseKey r n.lock, fun hc => absurd hc hst⟩
    · rw [Release_of_lookup_some_store h hst hfull]
      exact ⟨rfl, not_mem_keys_eraseKey r n.lock, fun hc => absurd hc hst⟩

theorem claim_release_found_removed_witness :
    (Release (⟨3, 5, [(2, 0)], []⟩ : PoolState Nat) 100 2).lock = eraseKey 2 [(2, 0)] ∧
    2 ∉ keys (Release (⟨3, 5, [(2, 0)], []⟩ : PoolState Nat) 100 2).lock ∧
    ((0 : Int) < getValidTimestamp (⟨3, 5, [(2, 0)], []⟩ : PoolState Nat) 100 →
      (Release (⟨3, 5, [(2, 0)], []⟩ : PoolState Nat) 100 2).unlock = []) :=
  claim_release_found_removed Nat ⟨3, 5, [(2, 0)], []⟩ 100 2 0 (by decide)

/-- Claim C10: both staleness comparisons are strict. An idle entry
timestamped exactly now − maxIdleTime survives the Acquire sweep and so
stays eligible for reuse, and a released resource whose checkout
timestamp is exactly now − maxIdleTime is not treated as stale: with
room in the idle map it is re-admitted with idle timestamp now. -/
theorem claim_staleness_strict (T : Type) [DecidableEq T] (n : PoolState T)
    (now : Int) (r : T) :
    ((r, getValidTimestamp n now) ∈ n.unlock →
      (r, getValidTimestamp n now) ∈ (deleteInvalidIdleResources n now).unlock) ∧
    (lookupKey r n.lock = some (getValidTimestamp n now) →
      NumIdle n < n.maxIdleSize →
      lookupKey r (Release n now r).unlock = some now) := by
  constructor
  · intro hmem
    rw [unlock_deleteInvalidIdleResources]
    exact List.mem_filter.mpr ⟨hmem, by simp⟩
  · intro hlk hroom
    rw [Release_of_lookup_some_store hlk (lt_irrefl _) (not_le.mpr hroom)]
    exact lookupKey_insertKey_self r now n.unlock

theorem claim_staleness_strict_witness :
    ((1 : Nat), (95 : Int)) ∈
      (deleteInvalidIdleResources (⟨3, 5, [(1, 95)], [(1, 95)]⟩ : PoolState Nat) 100).unlock ∧
    lookupKey 1 (Release (⟨3, 5, [(1, 95)], [(1, 95)]⟩ : PoolState Nat) 100 1).unlock =
      some 100 :=
  ⟨(claim_staleness_strict Nat ⟨3, 5, [(1, 95)], [(1, 95)]⟩ 100 1).1 (by decide),
   (claim_staleness_strict Nat ⟨3, 5, [(1, 95)], [(1, 95)]⟩ 100 1).2 (by decide) (by decide)⟩

end ResourcePool

namespace ResourcePool

/-- Claim C2 is violated by the code: on a pool built by `New` (whose
mutex is a non-reentrant `sync.Mutex`), after one successful Acquire of
resource 1 at time 10, releasing that same fresh resource at time 10
makes Release evaluate `n.NumIdle()` on line 74 while the pool mutex is
already held — two Lock attempts inside the single Release call — so the
call deadlocks instead of acquiring the lock exactly once. -/
theorem claim_release_single_lock_violated :
    (releaseMutexOps (run (New Nat 3 5)
        ([Op.acquire 10 (Except.ok 1)] : List (Op Nat Nat))) 10 1).count MEvent.lockOp = 2 ∧
    deadlocksFrom false (releaseMutexOps (run (New Nat 3 5)
        ([Op.acquire 10 (Except.ok 1)] : List (Op Nat Nat))) 10 1) = true := by
  decide

/-- Claim C4 counterexample: on the pool whose idle map holds the single
expired entry (2, 0), an Acquire at time 100 whose creator fails with
error 7 returns that error, but the pool state is not the state at the
start of the call: the sweep removed the idle entry first. -/
theorem claim_acquire_error_unchanged_cex :
    (Acquire (⟨3, 5, [], [(2, 0)]⟩ : PoolState Nat) 100
      (Except.error (7 : Nat))).factoryCalled = true ∧
    (Acquire (⟨3, 5, [], [(2, 0)]⟩ : PoolState Nat) 100
      (Except.error (7 : Nat))).result = Except.error 7 ∧
    (Acquire (⟨3, 5, [], [(2, 0)]⟩ : PoolState Nat) 100
      (Except.error (7 : Nat))).state ≠ ⟨3, 5, [], [(2, 0)]⟩ :=
  ⟨rfl, rfl, by decide⟩

/-- Claim C4 (amended): when the creator is invoked and fails, Acquire
propagates the creator's error verbatim and performs no partial
insertion: the in-use map is exactly unchanged and the final state is
exactly the post-sweep state, so the only difference from the state at
the start of the call is the sweep's removal of expired idle entries. -/
theorem claim_acquire_error_unchanged_amended (T : Type) [DecidableEq T] (Err : Type)
    (n : PoolState T) (now : Int) (e : Err)
    (h : (Acquire n now (Except.error e : Except Err T)).factoryCalled = true) :
    (Acquire n now (Except.error e : Except Err T)).result = Except.error e ∧
    (Acquire n now (Except.error e : Except Err T)).state.lock = n.lock ∧
    (Acquire n now (Except.error e : Except Err T)).state =
      deleteInvalidIdleResources n now := by
  cases hu' : (deleteInvalidIdleResources n now).unlock with
  | nil =>
    rw [Acquire_create_error hu']
    exact ⟨rfl, rfl, PoolState.ext rfl rfl rfl hu'.symm⟩
  | cons q rest =>
    obtain ⟨r0, t0⟩ := q
    rw [Acquire_reuse hu'] at h
    simp at h

theorem claim_acquire_error_unchanged_amended_witness :
    (Acquire (⟨3, 5, [(8, 1)], []⟩ : PoolState Nat) 0 (Except.error (5 : Nat))).result =
      Except.error 5 ∧
    (Acquire (⟨3, 5, [(8, 1)], []⟩ : PoolState Nat) 0 (Except.error (5 : Nat))).state.lock =
      [(8, 1)] ∧
    (Acquire (⟨3, 5, [(8, 1)], []⟩ : PoolState Nat) 0 (Except.error (5 : Nat))).state =
      deleteInvalidIdleResources (⟨3, 5, [(8, 1)], []⟩ : PoolState Nat) 0 :=
  claim_acquire_error_unchanged_amended Nat Nat ⟨3, 5, [(8, 1)], []⟩ 0 5 rfl

/-- Claim C5 counterexample: the pool's idle map holds the expired entry
(1, 0) and the fresh entry (2, 100); it is non-empty with an unexpired
member, and the Acquire at time 100 does return the idle member 2
without the creator, but the final idle map is empty — not the
call-start idle map with only the returned entry removed, because the
sweep also dropped (1, 0). -/
theorem claim_acquire_reuse_cex :
    (Acquire (⟨3, 5, [], [(1, 0), (2, 100)]⟩ : PoolState Nat) 100
      (Except.ok (9 : Nat)) : AcquireOut Nat Nat).result = Except.ok 2 ∧
    (Acquire (⟨3, 5, [], [(1, 0), (2, 100)]⟩ : PoolState Nat) 100
      (Except.ok (9 : Nat)) : AcquireOut Nat Nat).factoryCalled = false ∧
    (Acquire (⟨3, 5, [], [(1, 0), (2, 100)]⟩ : PoolState Nat) 100
      (Except.ok (9 : Nat)) : AcquireOut Nat Nat).state.unlock ≠
      eraseKey 2 [(1, 0), (2, 100)] :=
  ⟨rfl, rfl, by decide⟩

/-- Claim C5 (amended): for every Acquire call where the idle map (with
duplicate-free keys, as any Go map) contains at least one unexpired
entry, Acquire returns some unexpired member of the idle map without
invoking the creator, removes exactly that one entry from the post-sweep
idle map — the sweep having already discarded the expired entries — and
inserts it into the in-use map with checkout timestamp equal to now. -/
theorem claim_acquire_reuse_amended (T : Type) [DecidableEq T] (Err : Type)
    (n : PoolState T) (now : Int) (creator : Except Err T)
    (hnd : (keys n.unlock).Nodup)
    (h : ∃ p ∈ n.unlock, ¬ p.2 < getValidTimestamp n now) :
    ∃ r ts, (r, ts) ∈ n.unlock ∧ ¬ ts < getValidTimestamp n now ∧
      (Acquire n now creator).result = Except.ok r ∧
      (Acquire n now creator).factoryCalled = false ∧
      (Acquire n now creator).state.lock = insertKey r now n.lock ∧
      lookupKey r (Acquire n now creator).state.lock = some now ∧
      (Acquire n now creator).state.unlock =
        eraseKey r (deleteInvalidIdleResources n now).unlock := by
  obtain ⟨p0, hp0, hfresh0⟩ := h
  have hpmem : p0 ∈ (deleteInvalidIdleResources n now).unlock := by
    rw [unlock_deleteInvalidIdleResources]
    exact List.mem_filter.mpr ⟨hp0, decide_eq_true hfresh0⟩
  cases hu' : (deleteInvalidIdleResources n now).unlock with
  | nil =>
    rw [hu'] at hpmem
    cases hpmem
  | cons q rest =>
    obtain ⟨r0, t0⟩ := q
    have hqmem : (r0, t0) ∈ (deleteInvalidIdleResources n now).unlock := by
      rw [hu']
      exact List.mem_cons_self _ _
    rw [unlock_deleteInvalidIdleResources] at hqmem
    have hqfresh : ¬ t0 < getValidTimestamp n now :=
      of_decide_eq_true (List.mem_filter.mp hqmem).2
    have hqun : (r0, t0) ∈ n.unlock := (List.mem_filter.mp hqmem).1
    have hndf : (r0 :: keys rest).Nodup := by
      have hflt := nodup_keys_filter
        (fun p => decide (¬ p.2 < getValidTimestamp n now)) hnd
      rw [← unlock_deleteInvalidIdleResources, hu'] at hflt
      exact hflt
    have hr0 : r0 ∉ keys rest := (List.nodup_cons.mp hndf).1
    have hrest : eraseKey r0 ((r0, t0) :: rest) = rest := by
      have h1 : eraseKey r0 ((r0, t0) :: rest) = eraseKey r0 rest := by
        simp [eraseKey]
      rw [h1]
      apply List.filter_eq_self.mpr
      intro p hp
      exact decide_eq_true fun he => hr0 (he ▸ mem_keys_of_mem hp)
    refine ⟨r0, t0, hqun, hqfresh, ?_, ?_, ?_, ?_, ?_⟩
    · rw [Acquire_reuse hu']
    · rw [Acquire_reuse hu']
    · rw [Acquire_reuse hu']
    · rw [Acquire_reuse hu']
      exact lookupKey_insertKey_self r0 now n.lock
    · rw [Acquire_reuse hu', hrest]

theorem claim_acquire_reuse_amended_witness :
    ∃ r ts, ((r : Nat), (ts : Int)) ∈
        (⟨3, 5, [], [(2, 100)]⟩ : PoolState Nat).unlock ∧
      ¬ ts < getValidTimestamp (⟨3, 5, [], [(2, 100)]⟩ : PoolState Nat) 100 ∧
      (Acquire (⟨3, 5, [], [(2, 100)]⟩ : PoolState Nat) 100
        (Except.ok 9) : AcquireOut Nat Nat).result = Except.ok r ∧
      (Acquire (⟨3, 5, [], [(2, 100)]⟩ : PoolState Nat) 100
        (Except.ok 9) : AcquireOut Nat Nat).factoryCalled = false ∧
      (Acquire (⟨3, 5, [], [(2, 100)]⟩ : PoolState Nat) 100
        (Except.ok 9) : AcquireOut Nat Nat).state.lock = insertKey r 100 [] ∧
      lookupKey r (Acquire (⟨3, 5, [], [(2, 100)]⟩ : PoolState Nat) 100
        (Except.ok 9) : AcquireOut Nat Nat).state.lock = some 100 ∧
      (Acquire (⟨3, 5, [], [(2, 100)]⟩ : PoolState Nat) 100
        (Except.ok 9) : AcquireOut Nat Nat).state.unlock =
        eraseKey r (deleteInvalidIdleResources
          (⟨3, 5, [], [(2, 100)]⟩ : PoolState Nat) 100).unlock :=
  claim_acquire_reuse_amended Nat Nat ⟨3, 5, [], [(2, 100)]⟩ 100 (Except.ok 9)
    (by decide) (by decide)

end ResourcePool

namespace ResourcePool

/-- Claim C6: when every idle entry is expired at call time (in
particular when the idle map is empty), Acquire invokes the creator —
exactly once, since the embedded creator outcome is consumed at a single
program point — and returns its result: on success the new resource is
inserted into the in-use map with timestamp now and returned, on failure
the error is returned. -/
theorem claim_acquire_fallback (T : Type) [DecidableEq T] (Err : Type)
    (n : PoolState T) (now : Int) (creator : Except Err T)
    (h : ∀ p ∈ n.unlock, p.2 < getValidTimestamp n now) :
    (Acquire n now creator).factoryCalled = true ∧
    (∀ r, creator = Except.ok r →
      (Acquire n now creator).result = Except.ok r ∧
      (Acquire n now creator).state.lock = insertKey r now n.lock ∧
      lookupKey r (Acquire n now creator).state.lock = some now) ∧
    (∀ e, creator = Except.error e →
      (Acquire n now creator).result = Except.error e ∧
      (Acquire n now creator).state.lock = n.lock) := by
  have hnil : (deleteInvalidIdleResources n now).unlock = [] := by
    rw [unlock_deleteInvalidIdleResources, List.filter_eq_nil_iff]
    intro p hp
    simp [h p hp]
  cases creator with
  | ok r0 =>
    rw [Acquire_create_ok hnil]
    refine ⟨rfl, ?_, ?_⟩
    · intro r hr
      obtain rfl : r0 = r := by injection hr
      exact ⟨rfl, rfl, lookupKey_insertKey_self r0 now n.lock⟩
    · intro e he
      exact absurd he (by simp)
  | error e0 =>
    rw [Acquire_create_error hnil]
    refine ⟨rfl, ?_, ?_⟩
    · intro r hr
      exact absurd hr (by simp)
    · intro e he
      obtain rfl : e0 = e := by injection he
      exact ⟨rfl, rfl⟩

theorem claim_acquire_fallback_witness :
    (Acquire (⟨3, 5, [], [(9, 0)]⟩ : PoolState Nat) 100
      (Except.ok 1) : AcquireOut Nat Nat).factoryCalled = true ∧
    (Acquire (⟨3, 5, [], [(9, 0)]⟩ : PoolState Nat) 100
      (Except.ok 1) : AcquireOut Nat Nat).result = Except.ok 1 ∧
    (Acquire (⟨3, 5, [], [(9, 0)]⟩ : PoolState Nat) 100
      (Except.ok 1) : AcquireOut Nat Nat).state.lock = insertKey 1 100 [] :=
  ⟨(claim_acquire_fallback Nat Nat ⟨3, 5, [], [(9, 0)]⟩ 100 (Except.ok 1) (by decide)).1,
   ((claim_acquire_fallback Nat Nat ⟨3, 5, [], [(9, 0)]⟩ 100 (Except.ok 1)
      (by decide)).2.1 1 rfl).1,
   ((claim_acquire_fallback Nat Nat ⟨3, 5, [], [(9, 0)]⟩ 100 (Except.ok 1)
      (by decide)).2.1 1 rfl).2.1⟩

/-- Claim C7: every Acquire sweeps before it selects — the sweep
`deleteInvalidIdleResources`, which Acquire runs first, removes from the
idle map exactly the entries whose timestamp is older than
now − maxIdleTime and keeps all others — and whenever Acquire returns a
resource without invoking the creator, that resource came from an
unexpired idle entry, so a swept (expired) entry is discarded and never
offered. -/
theorem claim_acquire_sweep (T : Type) [DecidableEq T] (Err : Type)
    (n : PoolState T) (now : Int) (creator : Except Err T) :
    (∀ p : T × Int, p ∈ n.unlock → p.2 < getValidTimestamp n now →
      p ∉ (deleteInvalidIdleResources n now).unlock) ∧
    (∀ p : T × Int, p ∈ n.unlock → ¬ p.2 < getValidTimestamp n now →
      p ∈ (deleteInvalidIdleResources n now).unlock) ∧
    (∀ r, (Acquire n now creator).factoryCalled = false →
      (Acquire n now creator).result = Except.ok r →
      ∃ ts, (r, ts) ∈ n.unlock ∧ ¬ ts < getValidTimestamp n now) := by
  refine ⟨?_, ?_, ?_⟩
  · intro p hp hexp hmem
    rw [unlock_deleteInvalidIdleResources] at hmem
    exact of_decide_eq_true (List.mem_filter.mp hmem).2 hexp
  · intro p hp hfresh
    rw [unlock_deleteInvalidIdleResources]
    exact List.mem_filter.mpr ⟨hp, decide_eq_true hfresh⟩
  · intro r hfc hres
    cases hu' : (deleteInvalidIdleResources n now).unlock with
    | nil =>
      cases creator with
      | ok r0 =>
        rw [Acquire_create_ok hu'] at hfc
        exact absurd hfc (by simp)
      | error e0 =>
        rw [Acquire_create_error hu'] at hfc
        exact absurd hfc (by simp)
    | cons q rest =>
      obtain ⟨r0, t0⟩ := q
      rw [Acquire_reuse hu'] at hres
      obtain rfl : r0 = r := by simpa using hres
      have hmem : (r0, t0) ∈ (deleteInvalidIdleResources n now).unlock := by
        rw [hu']
        exact List.mem_cons_self _ _
      rw [unlock_deleteInvalidIdleResources] at hmem
      obtain ⟨hmem', hpred⟩ := List.mem_filter.mp hmem
      exact ⟨t0, hmem', of_decide_eq_true hpred⟩

theorem claim_acquire_sweep_witness :
    ((9 : Nat), (0 : Int)) ∉
      (deleteInvalidIdleResources (⟨3, 5, [], [(9, 0)]⟩ : PoolState Nat) 100).unlock :=
  (claim_acquire_sweep Nat Nat ⟨3, 5, [], [(9, 0)]⟩ 100 (Except.ok 1)).1 (9, 0)
    (by decide) (by decide)

end ResourcePool
